import Mathlib

/-!
Verification of the `veclite` repository (`src/src/lib.rs`).

A shallow embedding of the `Veclite<T>` wrapper around `Vec<T>`.
The backing `Vec<T>` is modelled as a `List T`; `Vec::push` is
`l ++ [x]`, `Vec::insert(0, x)` is `x :: l`, `Vec::remove(i)` is
`List.eraseIdx` together with the removed element, `slice::get` is
`l[i]?`, `Vec::len` is `List.length`, and `Vec::is_empty` is
`List.isEmpty`.  Rust references yielded by lookups and iterators are
modelled by the element values themselves; mutation of `&mut self` is
made explicit by returning the post-state.
-/

universe u v

/-- Embedding of `pub struct Veclite<T>(pub Vec<T>);` — a wrapper owning
one backing sequence (`src/src/lib.rs:35`). -/
structure Veclite (T : Type u) where
  elems : List T

namespace Veclite

variable {T : Type u}

/-- Embedding of `Veclite::new` (`src/src/lib.rs:45`): `Veclite(Vec::new())`. -/
def new : Veclite T := ⟨[]⟩

/-- Embedding of the public tuple-struct constructor `Veclite(v)`
(`src/src/lib.rs:35`): adopts an existing vector as the backing storage,
moving it in unchanged.  (The Lean keyword `from` is unavailable as a
name, hence `fromVec`.) -/
def fromVec (l : List T) : Veclite T := ⟨l⟩

/-- Embedding of `Veclite::add` (`src/src/lib.rs:57`): `self.0.push(value)`. -/
def add (v : Veclite T) (value : T) : Veclite T := ⟨v.elems ++ [value]⟩

/-- Embedding of `Veclite::prepend` (`src/src/lib.rs:70`):
`self.0.insert(0, value)`. -/
def prepend (v : Veclite T) (value : T) : Veclite T := ⟨value :: v.elems⟩

/-- Embedding of `Veclite::remove` (`src/src/lib.rs:88`): if
`index < self.0.len()` then `Some(self.0.remove(index))` else `None`.
The result pairs the returned `Option<T>` with the post-state of the
wrapper. -/
def remove (v : Veclite T) (index : Nat) : Option T × Veclite T :=
  if h : index < v.elems.length then
    (some (v.elems.get ⟨index, h⟩), ⟨v.elems.eraseIdx index⟩)
  else
    (none, v)

/-- Embedding of `Veclite::len` (`src/src/lib.rs:104`): `self.0.len()`. -/
def len (v : Veclite T) : Nat := v.elems.length

/-- Embedding of `Veclite::is_empty` (`src/src/lib.rs:115`):
`self.0.is_empty()`. -/
def is_empty (v : Veclite T) : Bool := v.elems.isEmpty

/-- Embedding of `Veclite::get` (`src/src/lib.rs:128`): `self.0.get(index)`;
the read-only borrow is modelled by the element value, and the wrapper
itself is not part of the result: `get` cannot mutate. -/
def get (v : Veclite T) (index : Nat) : Option T := v.elems[index]?

/-- Embedding of `Veclite::iter` (`src/src/lib.rs:142`): `self.0.iter()` —
the sequence of elements yielded, in order, by the by-reference iterator. -/
def iter (v : Veclite T) : List T := v.elems

/-- Embedding of `Veclite::iter_mut` (`src/src/lib.rs:157`):
`self.0.iter_mut()` — the sequence of elements the by-mutable-reference
iterator visits, in order. -/
def iter_mut (v : Veclite T) : List T := v.elems

/-- Embedding of `impl IntoIterator for Veclite<T>` (`src/src/lib.rs:188`):
`self.0.into_iter()` — the by-value iterator's yield sequence. -/
def into_iter (v : Veclite T) : List T := v.elems

/-- Embedding of `impl Display for Veclite<T>` (`src/src/lib.rs:175`):
writes each element's rendering in order, preceded by one space whenever
its index `i` satisfies `i > 0`.  `f` stands for the element type's own
`Display` implementation. -/
def display (f : T → String) (v : Veclite T) : String :=
  v.elems.enum.foldl
    (fun acc p => acc ++ (if p.1 > 0 then " " else "") ++ f p.2) ""

/-- Embedding of `impl Clone for Veclite<T>` (`src/src/lib.rs:227`):
`Veclite(self.0.clone())`. -/
def clone (v : Veclite T) : Veclite T := ⟨v.elems⟩

/-- Modelled from the spec: the transparent-delegation surface.  Spec §4.1
requires "full transparent delegation to every operation the underlying
ordered-sequence primitive already provides", §9 says it is "achieved via
operator-overload-style dereferencing in the source".  The `Deref`-style
accessor is absent from `src/src/lib.rs` (although the shipped examples
call `Vec` methods such as `push` through it); following the spec's words
it hands the caller the backing sequence itself, unchanged. -/
def deref (v : Veclite T) : List T := v.elems

/-- One call against the wrapper, for reasoning about operation sequences
(spec §8, first testable property). -/
inductive Op (T : Type u) where
  | add : T → Op T
  | prepend : T → Op T
  | remove : Nat → Op T

/-- Runs a sequence of calls left to right, returning the final wrapper
state together with the number of `remove` calls that returned an element
(successful removes). -/
def runCount : Veclite T → List (Op T) → Veclite T × Nat
  | v, [] => (v, 0)
  | v, Op.add x :: ops => runCount (v.add x) ops
  | v, Op.prepend x :: ops => runCount (v.prepend x) ops
  | v, Op.remove i :: ops =>
      ((runCount (v.remove i).2 ops).1,
       (if ((v.remove i).1).isSome then 1 else 0) + (runCount (v.remove i).2 ops).2)

/-- Number of `add` and `prepend` calls in a sequence of calls. -/
def inserts : List (Op T) → Nat
  | [] => 0
  | Op.add _ :: ops => inserts ops + 1
  | Op.prepend _ :: ops => inserts ops + 1
  | Op.remove _ :: ops => inserts ops

/-- Helper: a single `remove` decreases the length by exactly its success
count: post-length plus (1 on success, 0 on failure) equals pre-length. -/
theorem remove_len_balance (v : Veclite T) (i : Nat) :
    (v.remove i).2.len + (if ((v.remove i).1).isSome then 1 else 0) = v.len := by
  unfold Veclite.remove
  split
  · next h =>
    simp only [Option.isSome_some, if_pos]
    show (v.elems.eraseIdx i).length + 1 = v.elems.length
    rw [List.length_eraseIdx, if_pos h]
    omega
  · simp [Veclite.len]

/-- Helper: running a sequence of calls, final length plus successful
removes equals initial length plus insertions. -/
theorem run_len (v : Veclite T) (ops : List (Op T)) :
    (runCount v ops).1.len + (runCount v ops).2 = v.len + inserts ops := by
  induction ops generalizing v with
  | nil => simp [runCount, inserts]
  | cons op ops ih =>
    cases op with
    | add x =>
      simp only [runCount, inserts]
      rw [ih]
      simp [Veclite.add, Veclite.len]
      omega
    | prepend x =>
      simp only [runCount, inserts]
      rw [ih]
      simp [Veclite.prepend, Veclite.len]
      omega
    | remove i =>
      simp only [runCount, inserts]
      have hb := remove_len_balance v i
      have := ih (v.remove i).2
      omega

/-- Helper: the `Display` loop over indices `n + 1` and up always emits the
separator, so it folds like a plain "append space then element" pass. -/
theorem foldl_enumFrom_display (f : T → String) (xs : List T) (n : Nat) (acc : String) :
    (List.enumFrom (n + 1) xs).foldl
        (fun acc p => acc ++ (if p.1 > 0 then " " else "") ++ f p.2) acc
    = xs.foldl (fun acc x => acc ++ " " ++ f x) acc := by
  induction xs generalizing n acc with
  | nil => rfl
  | cons x xs ih =>
    simp only [List.enumFrom, List.foldl_cons, Nat.succ_pos, if_pos, gt_iff_lt]
    exact ih (n + 1) _

/-- Helper: the tail worker of `String.intercalate` is the same
"append separator then element" fold. -/
theorem intercalate_go_foldl (s : String) (acc : String) (xs : List String) :
    String.intercalate.go acc s xs = xs.foldl (fun acc a => acc ++ s ++ a) acc := by
  induction xs generalizing acc with
  | nil => rfl
  | cons a as ih =>
    simp only [String.intercalate.go, List.foldl_cons]
    exact ih _

/-- Helper: the `Display` embedding renders exactly the space-intercalation
of the elements' own renderings. -/
theorem display_eq_intercalate (f : T → String) (v : Veclite T) :
    display f v = String.intercalate " " (v.elems.map f) := by
  obtain ⟨l⟩ := v
  cases l with
  | nil => rfl
  | cons x xs =>
    show (List.enum (x :: xs)).foldl _ "" = _
    rw [List.enum]
    simp only [List.enumFrom, List.foldl_cons, gt_iff_lt, lt_self_iff_false, if_false]
    rw [foldl_enumFrom_display]
    simp only [List.map_cons, String.intercalate, intercalate_go_foldl, List.foldl_map]
    congr 1

/-- C1: for every wrapper state and every index `i` with `i ≥ len()`,
`remove(i)` returns `None` and leaves the wrapper completely unchanged —
the result state is the pre-state, so length and every element are
identical; no fatal error is possible (the embedding is a total function). -/
theorem remove_out_of_range (v : Veclite T) (i : Nat) (h : v.len ≤ i) :
    (v.remove i).1 = none ∧ (v.remove i).2 = v := by
  unfold Veclite.remove
  have h2 : ¬ i < v.elems.length := Nat.not_lt.mpr h
  rw [dif_neg h2]
  exact ⟨rfl, rfl⟩

/-- Witness for C1: the concrete wrapper `[1, 2]` with index `5`. -/
theorem remove_out_of_range_witness :
    Veclite.len (⟨[1, 2]⟩ : Veclite Nat) ≤ 5 ∧
    ((Veclite.remove (⟨[1, 2]⟩ : Veclite Nat) 5).1 = none ∧
     (Veclite.remove (⟨[1, 2]⟩ : Veclite Nat) 5).2 = ⟨[1, 2]⟩) :=
  ⟨by decide, remove_out_of_range ⟨[1, 2]⟩ 5 (by decide)⟩

/-- C2: for every wrapper state and every index `i < len()`, `remove(i)`
returns `Some` of the element previously stored at position `i` (the value
`get i`, which is present), decreases `len()` by exactly one, leaves every
element before position `i` unchanged, and shifts every element from
position `i + 1` on one position earlier. -/
theorem remove_in_range (v : Veclite T) (i : Nat) (h : i < v.len) :
    (v.remove i).1 = v.get i ∧ (v.get i).isSome = true ∧
    (v.remove i).2.len = v.len - 1 ∧
    (∀ j, j < i → (v.remove i).2.get j = v.get j) ∧
    (∀ j, i ≤ j → (v.remove i).2.get j = v.get (j + 1)) := by
  unfold Veclite.remove
  have h2 : i < v.elems.length := h
  rw [dif_pos h2]
  refine ⟨?_, ?_, ?_, ?_, ?_⟩
  · show some _ = v.elems[i]?
    rw [List.getElem?_eq_getElem h2]
    simp [List.get_eq_getElem]
  · show (v.elems[i]?).isSome = true
    rw [List.getElem?_eq_getElem h2]
    rfl
  · show (v.elems.eraseIdx i).length = v.elems.length - 1
    rw [List.length_eraseIdx, if_pos h2]
  · intro j hj
    show (v.elems.eraseIdx i)[j]? = v.elems[j]?
    rw [List.getElem?_eraseIdx, if_pos hj]
  · intro j hj
    show (v.elems.eraseIdx i)[j]? = v.elems[j + 1]?
    rw [List.getElem?_eraseIdx, if_neg (Nat.not_lt.mpr hj)]

/-- Witness for C2: the concrete wrapper `[10, 20, 30]` with index `1`. -/
theorem remove_in_range_witness :
    1 < Veclite.len (⟨[10, 20, 30]⟩ : Veclite Nat) ∧
    ((Veclite.remove (⟨[10, 20, 30]⟩ : Veclite Nat) 1).1 =
        Veclite.get (⟨[10, 20, 30]⟩ : Veclite Nat) 1 ∧
     (Veclite.get (⟨[10, 20, 30]⟩ : Veclite Nat) 1).isSome = true ∧
     (Veclite.remove (⟨[10, 20, 30]⟩ : Veclite Nat) 1).2.len =
        Veclite.len (⟨[10, 20, 30]⟩ : Veclite Nat) - 1 ∧
     (∀ j, j < 1 → (Veclite.remove (⟨[10, 20, 30]⟩ : Veclite Nat) 1).2.get j =
        Veclite.get (⟨[10, 20, 30]⟩ : Veclite Nat) j) ∧
     (∀ j, 1 ≤ j → (Veclite.remove (⟨[10, 20, 30]⟩ : Veclite Nat) 1).2.get j =
        Veclite.get (⟨[10, 20, 30]⟩ : Veclite Nat) (j + 1))) :=
  ⟨by decide, remove_in_range ⟨[10, 20, 30]⟩ 1 (by decide)⟩

/-- C3: the display formatting renders each element's own textual
representation in sequence order separated by exactly one space, with no
leading or trailing separator and no trailing newline (it equals the
space-intercalation of the renderings); the empty wrapper renders as `""`
and `[5, 10, 20]` renders as exactly `"5 10 20"`. -/
theorem display_space_separated :
    (∀ (T : Type u) (f : T → String) (v : Veclite T),
      display f v = String.intercalate " " (v.elems.map f)) ∧
    display toString (⟨[]⟩ : Veclite Nat) = "" ∧
    display toString (⟨[5, 10, 20]⟩ : Veclite Nat) = "5 10 20" := by
  refine ⟨?_, rfl, ?_⟩
  · intro T f v
    exact display_eq_intercalate f v
  · decide

/-- C4: transparent delegation (modelled from the spec, see `deref`): the
accessor exposes exactly the backing sequence, so every operation `g` of
the underlying sequence primitive is available through the wrapper with
its original behaviour — the wrapper restricts nothing; in particular push,
truncate and length queries applied through `deref` agree with the
wrapper's own surface and the backing list. -/
theorem deref_transparent_delegation (T : Type u) :
    (∀ v : Veclite T, deref v = v.elems) ∧
    (∀ (α : Type v) (g : List T → α) (w : Veclite T), g (deref w) = g w.elems) ∧
    (∀ (w : Veclite T) (x : T), deref w ++ [x] = (w.add x).elems) ∧
    (∀ (w : Veclite T) (n : Nat), (deref w).take n = w.elems.take n) ∧
    (∀ w : Veclite T, (deref w).length = w.len) :=
  ⟨fun _ => rfl, fun _ _ _ => rfl, fun _ _ => rfl, fun _ _ => rfl, fun _ => rfl⟩

/-- C5: after `prepend(x)`, `get(0)` returns `x`, the length grows by one,
and the element previously at position `i` is at position `i + 1` — the
previously-present elements keep their relative order one slot later. -/
theorem prepend_shifts_right (v : Veclite T) (x : T) :
    (v.prepend x).get 0 = some x ∧
    (v.prepend x).len = v.len + 1 ∧
    ∀ i, (v.prepend x).get (i + 1) = v.get i := by
  refine ⟨?_, rfl, ?_⟩
  · show (x :: v.elems)[0]? = some x
    simp
  · intro i
    show (x :: v.elems)[i + 1]? = v.elems[i]?
    simp

/-- C6: after `add(x)`, `get(len() - 1)` returns `x`: `add` appends `x` as
the new last element (length grows by one) and every previously-present
position is unchanged (`get i` is as before for `i ≠` old length). -/
theorem add_appends_last (v : Veclite T) (x : T) :
    (v.add x).len = v.len + 1 ∧
    (v.add x).get ((v.add x).len - 1) = some x ∧
    ∀ i, (v.add x).get i = if i = v.len then some x else v.get i := by
  refine ⟨?_, ?_, ?_⟩
  · show (v.elems ++ [x]).length = v.elems.length + 1
    simp
  · have hl : (v.add x).len - 1 = v.elems.length := by
      show (v.elems ++ [x]).length - 1 = v.elems.length
      simp
    rw [hl]
    show (v.elems ++ [x])[v.elems.length]? = some x
    exact List.getElem?_concat_length v.elems x
  · intro i
    show (v.elems ++ [x])[i]? = if i = v.elems.length then some x else v.elems[i]?
    rcases lt_trichotomy i v.elems.length with h | h | h
    · rw [List.getElem?_append_left h, if_neg (Nat.ne_of_lt h)]
    · subst h
      rw [List.getElem?_concat_length, if_pos rfl]
    · rw [if_neg (Nat.ne_of_gt h), List.getElem?_eq_none (by simp; omega),
          List.getElem?_eq_none (Nat.le_of_lt h)]

/-- C7: after any finite sequence of `add`, `prepend` and `remove` calls,
the final length plus the number of successful removes equals the initial
length plus the number of `add`/`prepend` calls; starting empty,
`is_empty()` is true exactly when insertions equal successful removes. -/
theorem len_counts_operations (T : Type u) :
    (∀ (v : Veclite T) (ops : List (Op T)),
      (runCount v ops).1.len + (runCount v ops).2 = v.len + inserts ops) ∧
    (∀ ops : List (Op T),
      ((runCount new ops).1.is_empty = true ↔
        inserts ops = (runCount new ops).2)) := by
  refine ⟨run_len, ?_⟩
  intro ops
  have h := run_len (new : Veclite T) ops
  have h0 : (new : Veclite T).len = 0 := rfl
  rw [h0, Nat.zero_add] at h
  simp only [Veclite.is_empty]
  rw [List.isEmpty_iff_length_eq_zero]
  show (runCount new ops).1.len = 0 ↔ _
  omega

/-- C8: `get(i)` returns the element stored at position `i` exactly when
`i < len()`, and `None` otherwise; it consumes only a shared borrow (the
embedding returns no new state) and is total, so it never mutates and
never fails fatally. -/
theorem get_in_bounds_iff (v : Veclite T) (i : Nat) :
    v.get i = if h : i < v.len then some (v.elems.get ⟨i, h⟩) else none := by
  show v.elems[i]? = _
  by_cases h : i < v.len
  · have h2 : i < v.elems.length := h
    rw [dif_pos h, List.getElem?_eq_getElem h2]
    simp [List.get_eq_getElem]
  · have h2 : v.elems.length ≤ i := Nat.le_of_not_lt h
    rw [dif_neg h, List.getElem?_eq_none h2]

/-- C9: the adopting constructor (the public tuple-struct constructor,
`fromVec` here) builds a wrapper whose backing storage is the given
sequence itself — order and elements preserved identically, every lookup
agreeing with the source sequence — and is total, so it never fails. -/
theorem fromVec_adopts (l : List T) :
    (fromVec l).elems = l ∧
    (fromVec l).len = l.length ∧
    ∀ i, (fromVec l).get i = l[i]? :=
  ⟨rfl, rfl, fun _ => rfl⟩

/-- C10: all three iteration modes — by value (`into_iter`), by shared
reference (`iter`), and by mutable reference (`iter_mut`) — yield exactly
`len()` items, and the item at position `i` of each yield sequence is the
element `get i`, i.e. iteration is in index order from `0` to `len() - 1`. -/
theorem iteration_modes_in_order (v : Veclite T) :
    ((v.into_iter).length = v.len ∧ ∀ i, (v.into_iter)[i]? = v.get i) ∧
    ((v.iter).length = v.len ∧ ∀ i, (v.iter)[i]? = v.get i) ∧
    ((v.iter_mut).length = v.len ∧ ∀ i, (v.iter_mut)[i]? = v.get i) :=
  ⟨⟨rfl, fun _ => rfl⟩, ⟨rfl, fun _ => rfl⟩, ⟨rfl, fun _ => rfl⟩⟩

end Veclite
